import Mathlib

/-!
Verification of the enhanced-memory plugin's store and retrieval engine.

The Python sources are shallowly embedded: dictionaries become insertion-ordered
association lists (Python dicts preserve insertion order), floats become exact
rationals, strings are Lean strings (char lists in the extractor), and external
effects (uuid generation, timestamps, the embedding model, jieba keyword
extraction) are passed in as explicit parameters.  Fallible external calls are
modelled with `Option`/`Except`.
-/

/-! ### Generic helpers: Python-style primitives -/

/-- Characters-level: `needle` occurs at the start of `hay`. -/
def strStarts : List Char → List Char → Bool
  | [], _ => true
  | _ :: _, [] => false
  | a :: as, b :: bs => a = b && strStarts as bs

/-- Characters-level substring test (Python `needle in hay`). -/
def strHasSub (needle : List Char) : List Char → Bool
  | [] => strStarts needle []
  | c :: rest => strStarts needle (c :: rest) || strHasSub needle rest

/-- Python `needle in hay` on strings. -/
def strContains (hay needle : String) : Bool :=
  strHasSub needle.toList hay.toList

/-- Python `str.lower()` (modelled with `Char.toLower`). -/
def strLower (s : String) : String :=
  ⟨s.toList.map Char.toLower⟩

/-- Python `any(w in s for w in words)`. -/
def anyWordIn (s : String) (words : List String) : Bool :=
  words.any (fun w => strContains s w)

/-- Python `max(0.0, min(1.0, x))`. -/
def pyClamp01 (x : ℚ) : ℚ :=
  max 0 (min 1 x)

/-- Python `max(items, key=score)`: linear scan that replaces the current
maximum only on a strictly greater score, so the first maximal element wins. -/
def pyMax (l : List (String × ℚ)) : Option (String × ℚ) :=
  match l with
  | [] => none
  | x :: xs => some (xs.foldl (fun c y => if c.2 < y.2 then y else c) x)

/-- Insert into a list sorted descending by `key`, after every element with a
strictly greater key; used to model Python's stable `list.sort(reverse=True)`. -/
def insertDesc (key : α → ℚ) (a : α) : List α → List α
  | [] => [a]
  | b :: l => if key a < key b then b :: insertDesc key a l else a :: b :: l

/-- Python `list.sort(key=key, reverse=True)`: stable, descending. -/
def pySortDescBy (key : α → ℚ) (l : List α) : List α :=
  l.foldr (insertDesc key) []

/-! ### Association lists modelling Python dicts (insertion-ordered) -/

/-- First value bound to `k` (Python `d[k]` / `k in d`). -/
def alistGet : List (String × α) → String → Option α
  | [], _ => none
  | p :: l, k => if p.1 = k then some p.2 else alistGet l k

/-- Python `d[k] = v`: update the (unique) binding in place if present,
keeping its position, else append at the end — exactly a dict assignment. -/
def alistPut : List (String × α) → String → α → List (String × α)
  | [], k, v => [(k, v)]
  | p :: l, k, v => if p.1 = k then (k, v) :: l else p :: alistPut l k v

/-- Python `del d[k]` (removes the binding of `k`; dict keys are unique). -/
def alistDel (l : List (String × α)) (k : String) : List (String × α) :=
  l.filter (fun p => p.1 ≠ k)

/-- Key list of a dict. -/
def alistKeys (l : List (String × α)) : List String :=
  l.map (·.1)

/-- `alistPut` for `Nat`-keyed dicts (the FAISS `index_to_id` mapping). -/
def natPut : List (Nat × α) → Nat → α → List (Nat × α)
  | [], k, v => [(k, v)]
  | p :: l, k, v => if p.1 = k then (k, v) :: l else p :: natPut l k v

/-! ### Canonical memory record (memory_manager.py `add_memory` shape) -/

/-- A canonical record as built by `EnhancedMemoryManager.add_memory` in
memory_manager.py.  `created_at`/`last_accessed` are ISO timestamps, modelled
as rational day counts (ISO strings compare chronologically). -/
structure Memory where
  id : String
  content : String
  importance : ℚ
  type : String
  tags : List String
  created_at : ℚ
  last_accessed : ℚ
  access_count : Nat
  decay : ℚ
  metadata : List (String × String)
  deriving Repr, DecidableEq

/-- The canonical store `self.memories`: an insertion-ordered dict. -/
abbrev Store := List (String × Memory)

namespace MM

/-! ## memory_manager.py: `EnhancedMemoryManager` -/

/-- `_passes_filters(memory, min_importance, memory_type)`.
`memory_type` is `None` (no filter) or a concrete type string; Python's
truthiness test on the argument is modelled by the `Option`. -/
def passesFilters (m : Memory) (minImportance : ℚ) (memoryType : Option String) : Bool :=
  if m.importance < minImportance then false
  else match memoryType with
    | some t => if m.type ≠ t then false else true
    | none => true

/-- The case-insensitive keyword test of `search_memories`:
`query.lower() in memory["content"].lower()`. -/
def keywordMatch (query : String) (m : Memory) : Bool :=
  strContains (strLower m.content) (strLower query)

/-- Records collected by the keyword branch of `search_memories`,
in store (dict-insertion) order. -/
def keywordMatches (store : Store) (query : String) (minImportance : ℚ)
    (memoryType : Option String) : List Memory :=
  (store.filter (fun p => keywordMatch query p.2 &&
      passesFilters p.2 minImportance memoryType)).map (·.2)

/-- Outcome of one call to `faiss_manager.search_similar`, abstracting the
embedding model: `none` means `self.faiss_manager is None`; `some (.error ())`
means the semantic branch raised; `some (.ok ids)` is the list of hit record
IDs in neighbor order. -/
abbrev SemOutcome := Option (Except Unit (List String))

/-- The semantic branch of `search_memories`: the records it appends to
`results`, and the value of the `use_semantic` flag afterwards (the `except`
handler sets it to `False`). -/
def semPhase (store : Store) (minImportance : ℚ) (memoryType : Option String)
    (useSemantic : Bool) (sem : SemOutcome) : List Memory × Bool :=
  match useSemantic, sem with
  | true, some (Except.ok ids) =>
      (ids.filterMap (fun i =>
        match alistGet store i with
        | some m =>
            if passesFilters m minImportance memoryType then some m else none
        | none => none), true)
  | true, some (Except.error _) => ([], false)
  | true, none => ([], true)
  | false, _ => ([], false)

/-- `search_memories(query, limit, min_importance, memory_type, use_semantic)`:
semantic branch, keyword fallback when the semantic branch was skipped, raised,
or produced no results, then a stable sort descending by stored importance and
truncation to `limit`. -/
def searchMemories (store : Store) (query : String) (limit : Nat)
    (minImportance : ℚ) (memoryType : Option String) (useSemantic : Bool)
    (sem : SemOutcome) : List Memory :=
  let p := semPhase store minImportance memoryType useSemantic sem
  let results :=
    if !p.2 || p.1.isEmpty then
      p.1 ++ keywordMatches store query minImportance memoryType
    else p.1
  (pySortDescBy (fun m => m.importance) results).take limit

/-- Outcome of `self.classifier.classify(content)`: `none` when
`self.classifier is None`, `some (.error ())` when the call raised, and
`some (.ok scores)` the score mapping as an insertion-ordered list of
(category, score) pairs. -/
abbrev ClassifyOutcome := Option (Except Unit (List (String × ℚ)))

/-- The `memory_type` computed by `add_memory` before the final
`memory_type or "其他"`: auto-classification runs only when requested, no type
was supplied, and a classifier exists; `max` over an empty mapping raises
`ValueError`, which the handler (like any classifier exception) turns into
"其他". -/
def computeType (memoryType : Option String) (autoClassify : Bool)
    (classifier : ClassifyOutcome) : Option String :=
  if autoClassify ∧ memoryType = none then
    match classifier with
    | some (Except.ok scores) =>
        match pyMax scores with
        | some p => some p.1
        | none => some "其他"
    | some (Except.error _) => some "其他"
    | none => memoryType
  else memoryType

/-- Python `memory_type or "其他"` (falsy for `None` and `""`). -/
def pyOrOther : Option String → String
  | none => "其他"
  | some s => if s = "" then "其他" else s

/-- `add_memory(content, importance, memory_type, tags, metadata,
auto_classify)`.  The fresh uuid and the current time are parameters; the
FAISS/graph side effects do not touch the canonical store and are omitted
here.  Returns the fresh id and the updated store. -/
def addMemory (store : Store) (content : String) (importance : ℚ)
    (memoryType : Option String) (tags : List String)
    (metadata : List (String × String)) (autoClassify : Bool)
    (classifier : ClassifyOutcome) (freshId : String) (now : ℚ) :
    String × Store :=
  let memory : Memory :=
    { id := freshId
      content := content
      importance := pyClamp01 importance
      type := pyOrOther (computeType memoryType autoClassify classifier)
      tags := tags
      created_at := now
      last_accessed := now
      access_count := 0
      decay := 0
      metadata := metadata }
  (freshId, alistPut store freshId memory)

end MM

/-! ## faiss_manager.py: `FAISSManager` (index-mapping state) -/

/-- The mapping state of `FAISSManager`: `id_to_index`, `index_to_id`, and the
running vector count `index.ntotal`.  The stored vectors themselves are
irrelevant to the claims. -/
structure FaissState where
  id_to_index : List (String × Nat)
  index_to_id : List (Nat × String)
  ntotal : Nat
  deriving Repr, DecidableEq

/-- `FAISSManager.add_memory(memory_id, text)`.  `embedOk text` abstracts
whether embedding succeeds (`False` when `self.embedding_model is None` or the
encode call raises); on failure nothing is mutated and `False` is returned. -/
def FaissState.addMemory (fs : FaissState) (embedOk : String → Bool)
    (memoryId : String) (text : String) : FaissState × Bool :=
  if embedOk text then
    ({ id_to_index := alistPut fs.id_to_index memoryId fs.ntotal
       index_to_id := natPut fs.index_to_id fs.ntotal memoryId
       ntotal := fs.ntotal + 1 }, true)
  else (fs, false)

/-- `FAISSManager.remove_memory(memory_id)`: logical removal — drop both
mapping entries (dict `pop`; keys are unique, modelled by a filter). -/
def FaissState.removeMemory (fs : FaissState) (memoryId : String) :
    FaissState × Bool :=
  match alistGet fs.id_to_index memoryId with
  | none => (fs, false)
  | some idx =>
      ({ fs with
          id_to_index := fs.id_to_index.filter (fun p => p.1 ≠ memoryId)
          index_to_id := fs.index_to_id.filter (fun p => p.1 ≠ idx) }, true)

/-! ## memory_graph.py: `MemoryGraph` (networkx graph state) -/

/-- The association graph: node ids and undirected edges carrying
`(relation_type, strength)`.  Node attributes (the memory dict) are irrelevant
to the claims and omitted. -/
structure GraphState where
  nodes : List String
  edges : List (String × String × String × ℚ)
  deriving Repr, DecidableEq

/-- Two endpoint pairs describe the same undirected edge. -/
def sameEdge (u v a b : String) : Bool :=
  (u = a && v = b) || (u = b && v = a)

/-- `MemoryGraph.add_memory(memory_id, memory_data)`: `graph.add_node`, which
is idempotent on the node set (it only refreshes attributes when present). -/
def GraphState.addMemoryNode (g : GraphState) (memoryId : String) : GraphState :=
  if memoryId ∈ g.nodes then g else { g with nodes := g.nodes ++ [memoryId] }

/-- `MemoryGraph.remove_memory(memory_id)`: when present, `remove_node` drops
the node and every incident edge. -/
def GraphState.removeMemoryNode (g : GraphState) (memoryId : String) : GraphState :=
  if memoryId ∈ g.nodes then
    { nodes := g.nodes.filter (fun n => n ≠ memoryId)
      edges := g.edges.filter (fun e => e.1 ≠ memoryId ∧ e.2.1 ≠ memoryId) }
  else g

/-- `MemoryGraph.add_association(id1, id2, relation_type, strength)`: adds the
edge only when both endpoints are nodes of the graph (networkx `add_edge`
refreshes the attributes when the undirected edge already exists). -/
def GraphState.addAssociation (g : GraphState) (id1 id2 relationType : String)
    (strength : ℚ) : Bool × GraphState :=
  if id1 ∈ g.nodes ∧ id2 ∈ g.nodes then
    let edges' :=
      if g.edges.any (fun e => sameEdge e.1 e.2.1 id1 id2) then
        g.edges.map (fun e =>
          if sameEdge e.1 e.2.1 id1 id2 then (e.1, e.2.1, relationType, strength)
          else e)
      else g.edges ++ [(id1, id2, relationType, strength)]
    (true, { g with edges := edges' })
  else (false, g)

namespace MM

/-! ## memory_manager.py: synchronization and pruning -/

/-- `_sync_auxiliary_storage`: add every canonical id missing from the FAISS
mapping / graph, then remove every FAISS / graph id that is no longer
canonical.  The Python set differences are iterated here in dict order; the
membership tests mirror the source exactly. -/
def syncAuxiliaryStorage (store : Store) (fs : FaissState) (g : GraphState)
    (embedOk : String → Bool) : FaissState × GraphState :=
  let memoryIds := alistKeys store
  let faissIds := alistKeys fs.id_to_index
  let fs₁ := memoryIds.foldl (fun s i =>
      if i ∉ faissIds then
        match alistGet store i with
        | some m => (s.addMemory embedOk i m.content).1
        | none => s
      else s) fs
  let fs₂ := faissIds.foldl (fun s i =>
      if i ∉ memoryIds then (s.removeMemory i).1 else s) fs₁
  let graphIds := g.nodes
  let g₁ := memoryIds.foldl (fun s i =>
      if i ∉ graphIds then
        if (alistGet store i).isSome then s.addMemoryNode i else s
      else s) g
  let g₂ := graphIds.foldl (fun s i =>
      if i ∉ memoryIds then s.removeMemoryNode i else s) g₁
  (fs₂, g₂)

/-- `_prune_memories`: keep the `max_memories` records with the largest
`importance * (1 - decay)` (Python `sorted` is stable, descending here), then
reconcile the auxiliary storage. -/
def pruneMemories (store : Store) (fs : FaissState) (g : GraphState)
    (embedOk : String → Bool) (maxMemories : Nat) :
    Store × FaissState × GraphState :=
  let store' := (pySortDescBy (fun p => p.2.importance * (1 - p.2.decay))
      store).take maxMemories
  let aux := syncAuxiliaryStorage store' fs g embedOk
  (store', aux.1, aux.2)

/-! ## memory_manager.py: export / import -/

/-- A row written by the CSV exporter: header
`ID, Content, Type, Importance, Tags, Created At`.  Cells keep their value
types; the csv module round-trips each cell text faithfully and Python's
`float(str(x))` is exact, so a cell is modelled by the value itself. -/
structure CsvRow where
  id : String
  content : String
  type : String
  importance : ℚ
  tags : String
  created_at : ℚ
  deriving Repr, DecidableEq

/-- Python `",".join(tags)`. -/
def joinTags (tags : List String) : String :=
  String.intercalate "," tags

/-- `export_memories(path, "json")` writes `json.dump(self.memories)`; the
file content is the serialized store itself. -/
def exportJson (store : Store) : Store := store

/-- `export_memories(path, "csv")`: one row per record, in store order. -/
def exportCsv (store : Store) : List CsvRow :=
  store.map (fun p =>
    { id := p.1
      content := p.2.content
      type := p.2.type
      importance := p.2.importance
      tags := joinTags p.2.tags
      created_at := p.2.created_at })

/-- The record `import_memories` rebuilds from one CSV row (`DictReader` row;
all header keys are present, `Tags` is re-split on commas and falsy `""`
becomes `[]`). -/
def memoryOfCsvRow (row : CsvRow) (now : ℚ) : Memory :=
  { id := row.id
    content := row.content
    type := row.type
    importance := row.importance
    tags := if row.tags = "" then [] else row.tags.splitOn ","
    created_at := row.created_at
    last_accessed := now
    access_count := 0
    decay := 0
    metadata := [] }

/-- The `imported_memories` dict built from a CSV file (`imported[id] = memory`
row by row). -/
def importedOfCsv (rows : List CsvRow) (now : ℚ) : Store :=
  rows.foldl (fun acc row => alistPut acc row.id (memoryOfCsvRow row now)) []

/-- The merge loop of `import_memories`: ids already in the store are skipped
("first writer wins"), new ids are inserted. -/
def mergeImport (store imported : Store) : Store :=
  imported.foldl (fun s p =>
    if (alistGet s p.1).isSome then s else s ++ [(p.1, p.2)]) store

/-- `import_memories(path, "json")` on a file produced by `exportJson`. -/
def importJson (store : Store) (file : Store) : Store :=
  mergeImport store file

/-- `import_memories(path, "csv")`. -/
def importCsv (store : Store) (rows : List CsvRow) (now : ℚ) : Store :=
  mergeImport store (importedOfCsv rows now)

end MM

namespace Main

/-! ## main.py: the plugin variant (`EnhancedMemoryManager`,
`MemoryAssociationManager`) -/

/-- A record built by `EnhancedMemoryManager.add_memory` in main.py (note:
no `tags`/`decay`/`metadata`, importance stored as given). -/
structure MainMemory where
  id : String
  content : String
  importance : ℚ
  type : String
  created_at : ℚ
  last_accessed : ℚ
  access_count : Nat
  keywords : List String
  deriving Repr, DecidableEq

/-- The canonical store of the main.py manager. -/
abbrev MainStore := List (String × MainMemory)

/-- `MemoryAssociationManager.associations`:
`{memory_id: {related_id: strength}}`. -/
abbrev Assoc := List (String × List (String × ℚ))

/-- `_classify_memory_type(content)`: fixed keyword rules over the lowercased
content. -/
def classifyMemoryType (content : String) : String :=
  let c := strLower content
  if anyWordIn c ["喜欢", "讨厌", "爱", "恨", "偏好"] then "preference"
  else if anyWordIn c ["认为", "觉得", "想", "应该"] then "opinion"
  else if anyWordIn c ["昨天", "今天", "明天", "小时", "分钟"] then "event"
  else if anyWordIn c ["是", "有", "在", "属于"] then "fact"
  else "other"

/-- main.py `add_memory(content, importance, memory_type, auto_associate)`:
stores the importance exactly as supplied (no clamping).  The jieba keyword
extraction is passed in (`[]` on `ImportError`); the auto-association side
effects touch only the association manager, not the canonical store, and are
modelled separately. -/
def addMemory (store : MainStore) (content : String) (importance : ℚ)
    (memoryType : Option String) (keywords : List String)
    (freshId : String) (now : ℚ) : String × MainStore :=
  let t :=
    match memoryType with
    | none => classifyMemoryType content
    | some s => s
  let memory : MainMemory :=
    { id := freshId
      content := content
      importance := importance
      type := t
      created_at := now
      last_accessed := now
      access_count := 0
      keywords := keywords }
  (freshId, alistPut store freshId memory)

/-- Update `assoc[outer][inner] = strength`, materializing `assoc[outer]`
if absent (as `add_association` does with its two `if ... not in` guards). -/
def assocPut (assoc : Assoc) (outer inner : String) (strength : ℚ) : Assoc :=
  let withOuter :=
    if (alistGet assoc outer).isSome then assoc else assoc ++ [(outer, [])]
  withOuter.map (fun p =>
    if p.1 = outer then (p.1, alistPut p.2 inner strength) else p)

/-- `MemoryAssociationManager.add_association(memory_id, related_id,
strength)`: creates both endpoints if missing, writes the strength in both
directions, and always returns `True`. -/
def addAssociation (assoc : Assoc) (memoryId relatedId : String)
    (strength : ℚ) : Bool × Assoc :=
  let a₁ := if (alistGet assoc memoryId).isSome then assoc
            else assoc ++ [(memoryId, [])]
  let a₂ := if (alistGet a₁ relatedId).isSome then a₁
            else a₁ ++ [(relatedId, [])]
  let a₃ := assocPut a₂ memoryId relatedId strength
  let a₄ := assocPut a₃ relatedId memoryId strength
  (true, a₄)

/-- `MemoryAssociationManager.remove_association(memory_id, related_id)`:
delete both directed entries when present; always returns `True`. -/
def removeAssociation (assoc : Assoc) (memoryId relatedId : String) : Assoc :=
  let a₁ := assoc.map (fun p =>
    if p.1 = memoryId then (p.1, alistDel p.2 relatedId) else p)
  a₁.map (fun p =>
    if p.1 = relatedId then (p.1, alistDel p.2 memoryId) else p)

/-- main.py `delete_memory(memory_id)`: when the id is present, remove every
association incident to it (both directions), drop its adjacency row, and
remove the record; returns whether the id was present.  Every branch is
total — the source has no raise path. -/
def deleteMemory (store : MainStore) (assoc : Assoc) (memoryId : String) :
    Bool × MainStore × Assoc :=
  if (alistGet store memoryId).isSome then
    let assoc' :=
      match alistGet assoc memoryId with
      | some row =>
          let cleared := (alistKeys row).foldl
            (fun a rid => removeAssociation a memoryId rid) assoc
          alistDel cleared memoryId
      | none => assoc
    (true, alistDel store memoryId, assoc')
  else (false, store, assoc)

end Main

namespace Extractor

/-! ## memory_extractor.py: `MemoryExtractor` (modelled on char lists) -/

/-- Sentence-final punctuation of `_split_into_sentences`
(`re.split(r'[。！？!?;；]', text)`). -/
def isSentenceEnd (c : Char) : Bool :=
  c = '。' || c = '！' || c = '？' || c = '!' || c = '?' || c = ';' || c = '；'

/-- Split a char list at every char satisfying `p` (separators dropped), like
`re.split` on a character class. -/
def splitChars (p : Char → Bool) : List Char → List (List Char)
  | [] => [[]]
  | c :: cs =>
      match splitChars p cs with
      | [] => if p c then [[], []] else [[c]]
      | h :: t => if p c then [] :: h :: t else (c :: h) :: t

/-- Python `str.strip()`. -/
def charTrim (l : List Char) : List Char :=
  ((l.dropWhile Char.isWhitespace).reverse.dropWhile Char.isWhitespace).reverse

/-- `_split_into_sentences`: split, strip each fragment, keep the non-empty
ones. -/
def splitIntoSentences (text : List Char) : List (List Char) :=
  ((splitChars isSentenceEnd text).map charTrim).filter (fun s => s ≠ [])

/-- `word in sentence` on char lists. -/
def hasWord (sentence : List Char) (word : String) : Bool :=
  strHasSub word.toList sentence

/-- `any(w in sentence for w in words)` on char lists. -/
def hasAnyWord (sentence : List Char) (words : List String) : Bool :=
  words.any (hasWord sentence)

/-- A conversation turn `{role, content}` of the context list. -/
abbrev Turn := String × String

/-- The last context turn with `role == "user"`, if any. -/
def lastUserMessage (context : List Turn) : Option String :=
  (context.reverse.find? (fun t => t.1 = "user")).map (·.2)

/-- `_calculate_importance(sentence, conversation_context)`: additive rule
scoring capped at 1.0.  Python's `re.search(r'\d+', ...)` is modelled by a
decimal-digit scan. -/
def calculateImportance (sentence : List Char) (context : List Turn) : ℚ :=
  let base : ℚ := 1/10
  let pronouns := ["我", "你", "他", "她", "我们", "你们", "他们"]
  let emotions := ["喜欢", "讨厌", "爱", "恨", "开心", "难过", "生气", "害怕"]
  let verbs := ["记得", "知道", "认为", "觉得", "想要", "需要", "希望"]
  let questions := ["吗?", "吗？", "什么", "为什么", "怎么"]
  let s₁ := base + (if hasAnyWord sentence pronouns then 2/10 else 0)
  let s₂ := s₁ + (if hasAnyWord sentence emotions then 3/10 else 0)
  let s₃ := s₂ + (if hasAnyWord sentence verbs then 2/10 else 0)
  let s₄ := s₃ + (if sentence.any Char.isDigit then 1/10 else 0)
  let s₅ := s₄ +
    (if context ≠ [] then
      match lastUserMessage context with
      | some msg =>
          if msg ≠ "" ∧ hasAnyWord msg.toList questions then 2/10 else 0
      | none => 0
    else 0)
  min s₅ 1

/-- `_determine_memory_type(sentence)`. -/
def determineMemoryType (sentence : List Char) : String :=
  if hasAnyWord sentence ["是", "有", "在", "属于"] then "事实"
  else if hasAnyWord sentence ["认为", "觉得", "想", "应该"] then "观点"
  else if hasAnyWord sentence ["喜欢", "讨厌", "爱", "恨"] then "用户偏好"
  else if hasAnyWord sentence ["昨天", "今天", "明天", "小时", "分钟"] then "事件"
  else "其他"

/-- A candidate memory emitted by `extract_from_text`. -/
structure Candidate where
  content : List Char
  importance : ℚ
  type : String
  keywords : List String
  deriving Repr, DecidableEq

/-- `extract_from_text(text, conversation_context)`: one candidate per
sentence whose importance reaches `min_importance`.  `kwExtract` abstracts the
jieba call guarded by the `extract_keywords` flag (`none` = flag off; the
internal try/except already yields `[]` on failure). -/
def extractFromText (minImportance : ℚ) (kwExtract : Option (List Char → List String))
    (text : List Char) (context : List Turn) : List Candidate :=
  (splitIntoSentences text).filterMap (fun sentence =>
    let importance := calculateImportance sentence context
    if minImportance ≤ importance then
      some { content := sentence
             importance := importance
             type := determineMemoryType sentence
             keywords := match kwExtract with
               | some f => f sentence
               | none => [] }
    else none)

end Extractor

/-! ## Spec-side definitions (for refinement comparison only)

These two definitions follow the specification's words, not the source; they
exist to be compared against `MM.searchMemories`. -/

/-- Modelled from the spec: "effective importance = importance × (1 −
min(0.9, days_elapsed×0.1))", with timestamps in days. -/
def specEffectiveImportance (now : ℚ) (m : Memory) : ℚ :=
  m.importance * (1 - min (9/10) ((now - m.created_at) * (1/10)))

/-- Modelled from the spec: "sort descending by current effective importance
(with decay applied); ties broken by most-recent `created_at` first. Truncate
to `limit`."  A stable sort on the secondary key followed by a stable sort on
the primary key realizes exactly this lexicographic ranking. -/
def specSearchRanking (now : ℚ) (candidates : List Memory) (limit : Nat) :
    List Memory :=
  (pySortDescBy (fun m => specEffectiveImportance now m)
    (pySortDescBy (fun m => m.created_at) candidates)).take limit

/-! ## General lemmas about the dict and sort primitives -/

theorem alistGet_put_self (l : List (String × α)) (k : String) (v : α) :
    alistGet (alistPut l k v) k = some v := by
  induction l with
  | nil => simp [alistPut, alistGet]
  | cons p l ih =>
      by_cases h : p.1 = k <;> simp [alistPut, alistGet, h, ih]

theorem alistGet_put_ne (l : List (String × α)) (k k' : String) (v : α)
    (h : k' ≠ k) : alistGet (alistPut l k v) k' = alistGet l k' := by
  induction l with
  | nil => simp [alistPut, alistGet, Ne.symm h]
  | cons p l ih =>
      obtain ⟨a, b⟩ := p
      by_cases ha : a = k
      · subst ha
        simp [alistPut, alistGet, Ne.symm h]
      · simp [alistPut, alistGet, ha, ih]

theorem alistGet_del_self (l : List (String × α)) (k : String) :
    alistGet (alistDel l k) k = none := by
  induction l with
  | nil => simp [alistDel, alistGet]
  | cons p l ih =>
      obtain ⟨a, b⟩ := p
      by_cases ha : a = k
      · simpa [alistDel, List.filter_cons, ha] using ih
      · simpa [alistDel, List.filter_cons, ha, alistGet] using ih

theorem alistGet_del_ne (l : List (String × α)) (k k' : String)
    (h : k' ≠ k) : alistGet (alistDel l k) k' = alistGet l k' := by
  induction l with
  | nil => simp [alistDel, alistGet]
  | cons p l ih =>
      obtain ⟨a, b⟩ := p
      by_cases ha : a = k
      · subst ha
        simpa [alistDel, List.filter_cons, alistGet, Ne.symm h] using ih
      · simp only [alistDel, ne_eq, decide_not] at ih
        simp [alistDel, List.filter_cons, ha, alistGet, ih]

theorem alistGet_none_iff (l : List (String × α)) (k : String) :
    alistGet l k = none ↔ k ∉ alistKeys l := by
  induction l with
  | nil => simp [alistGet, alistKeys]
  | cons p l ih =>
      obtain ⟨a, b⟩ := p
      by_cases ha : a = k
      · subst ha
        simp [alistGet, alistKeys]
      · simp only [alistGet, alistKeys, List.map_cons, List.mem_cons,
          if_neg ha] at ih ⊢
        rw [ih]
        constructor
        · intro hk hor
          rcases hor with hk' | hk'
          · exact ha hk'.symm
          · exact hk hk'
        · intro hk hk'
          exact hk (Or.inr hk')

theorem alistKeys_put (l : List (String × α)) (k : String) (v : α) :
    alistKeys (alistPut l k v) =
      if k ∈ alistKeys l then alistKeys l else alistKeys l ++ [k] := by
  induction l with
  | nil => simp [alistPut, alistKeys]
  | cons p l ih =>
      obtain ⟨a, b⟩ := p
      by_cases ha : a = k
      · subst ha
        simp [alistPut, alistKeys]
      · have h1 : alistPut ((a, b) :: l) k v = (a, b) :: alistPut l k v := by
          simp [alistPut, ha]
        have h2 : alistKeys ((a, b) :: alistPut l k v)
            = a :: alistKeys (alistPut l k v) := rfl
        have h3 : alistKeys ((a, b) :: l) = a :: alistKeys l := rfl
        rw [h1, h2, h3, ih]
        by_cases hk : k ∈ alistKeys l
        · rw [if_pos hk, if_pos (by simp [hk])]
        · rw [if_neg hk, if_neg (by simp [Ne.symm ha, hk]), List.cons_append]

theorem mem_keys_put (l : List (String × α)) (k : String) (v : α) (x : String)
    (hx : x ∈ alistKeys (alistPut l k v)) : x = k ∨ x ∈ alistKeys l := by
  rw [alistKeys_put] at hx
  by_cases hk : k ∈ alistKeys l
  · rw [if_pos hk] at hx
    exact Or.inr hx
  · rw [if_neg hk] at hx
    rcases List.mem_append.mp hx with hx | hx
    · exact Or.inr hx
    · exact Or.inl (by simpa using hx)

theorem mem_keys_del (l : List (String × α)) (k x : String) :
    x ∈ alistKeys (alistDel l k) ↔ x ∈ alistKeys l ∧ x ≠ k := by
  simp only [alistDel, alistKeys, List.mem_map, List.mem_filter]
  constructor
  · rintro ⟨p, ⟨hp, hpk⟩, rfl⟩
    exact ⟨⟨p, hp, rfl⟩, by simpa using hpk⟩
  · rintro ⟨⟨p, hp, rfl⟩, hxk⟩
    exact ⟨p, ⟨hp, by simpa using hxk⟩, rfl⟩

theorem alistGet_append_of_none (l₁ l₂ : List (String × α)) (k : String)
    (h : alistGet l₁ k = none) :
    alistGet (l₁ ++ l₂) k = alistGet l₂ k := by
  induction l₁ with
  | nil => simp
  | cons p l ih =>
      by_cases hp : p.1 = k
      · simp [alistGet, hp] at h
      · simp [alistGet, hp] at h ⊢
        exact ih h

theorem alistGet_append_of_isSome (l₁ l₂ : List (String × α)) (k : String)
    (h : (alistGet l₁ k).isSome) :
    alistGet (l₁ ++ l₂) k = alistGet l₁ k := by
  induction l₁ with
  | nil => simp [alistGet] at h
  | cons p l ih =>
      by_cases hp : p.1 = k
      · simp [alistGet, hp]
      · simp [alistGet, hp] at h ⊢
        exact ih h

theorem alistGet_map_snd (l : List (String × α)) (f : α → β) (k : String) :
    alistGet (l.map (fun p => (p.1, f p.2))) k = (alistGet l k).map f := by
  induction l with
  | nil => simp [alistGet]
  | cons p l ih =>
      by_cases hp : p.1 = k <;> simp [alistGet, hp, ih]

theorem alistPut_fresh (l : List (String × α)) (k : String) (v : α)
    (h : alistGet l k = none) : alistPut l k v = l ++ [(k, v)] := by
  induction l with
  | nil => simp [alistPut]
  | cons p l ih =>
      obtain ⟨a, b⟩ := p
      by_cases ha : a = k
      · simp [alistGet, ha] at h
      · simp [alistGet, ha] at h
        simp [alistPut, ha, ih h]

theorem mem_insertDesc (key : α → ℚ) (a x : α) (l : List α) :
    x ∈ insertDesc key a l ↔ x = a ∨ x ∈ l := by
  induction l with
  | nil => simp [insertDesc]
  | cons b t ih =>
      by_cases h : key a < key b
      · simp only [insertDesc, if_pos h, List.mem_cons, ih]
        tauto
      · simp only [insertDesc, if_neg h, List.mem_cons]

theorem insertDesc_perm (key : α → ℚ) (a : α) (l : List α) :
    List.Perm (insertDesc key a l) (a :: l) := by
  induction l with
  | nil => exact List.Perm.refl _
  | cons b t ih =>
      by_cases h : key a < key b
      · simp only [insertDesc, if_pos h]
        exact (ih.cons b).trans (List.Perm.swap a b t)
      · simp only [insertDesc, if_neg h]
        exact List.Perm.refl _

theorem pySortDescBy_perm (key : α → ℚ) (l : List α) :
    List.Perm (pySortDescBy key l) l := by
  induction l with
  | nil => exact List.Perm.refl _
  | cons x t ih =>
      have hx : pySortDescBy key (x :: t) = insertDesc key x (pySortDescBy key t) := rfl
      rw [hx]
      exact (insertDesc_perm key x _).trans (ih.cons x)

theorem insertDesc_sorted (key : α → ℚ) (a : α) (l : List α)
    (h : l.Pairwise (fun x y => key y ≤ key x)) :
    (insertDesc key a l).Pairwise (fun x y => key y ≤ key x) := by
  induction l with
  | nil => simp [insertDesc]
  | cons b t ih =>
      rcases List.pairwise_cons.mp h with ⟨hb, ht⟩
      by_cases hab : key a < key b
      · simp only [insertDesc, if_pos hab]
        refine List.pairwise_cons.mpr ⟨?_, ih ht⟩
        intro y hy
        rcases (mem_insertDesc key a y t).mp hy with rfl | hy
        · exact le_of_lt hab
        · exact hb y hy
      · simp only [insertDesc, if_neg hab]
        refine List.pairwise_cons.mpr ⟨?_, h⟩
        intro y hy
        rcases List.mem_cons.mp hy with rfl | hy
        · exact not_lt.mp hab
        · exact le_trans (hb y hy) (not_lt.mp hab)

theorem pySortDescBy_sorted (key : α → ℚ) (l : List α) :
    (pySortDescBy key l).Pairwise (fun x y => key y ≤ key x) := by
  induction l with
  | nil => simp [pySortDescBy]
  | cons x t ih => exact insertDesc_sorted key x _ ih

theorem pySortDescBy_const (key : α → ℚ) (c : ℚ) (l : List α)
    (h : ∀ x ∈ l, key x = c) : pySortDescBy key l = l := by
  induction l with
  | nil => rfl
  | cons x t ih =>
      have hx : key x = c := h x (by simp)
      have ht : ∀ y ∈ t, key y = c := fun y hy => h y (by simp [hy])
      have : pySortDescBy key (x :: t) = insertDesc key x (pySortDescBy key t) := rfl
      rw [this, ih ht]
      cases t with
      | nil => rfl
      | cons b t' =>
          have : ¬ key x < key b := by
            rw [hx, ht b (by simp)]
            exact lt_irrefl c
          simp [insertDesc, this]

theorem pyClamp01_nonneg (x : ℚ) : 0 ≤ pyClamp01 x := le_max_left 0 _

theorem pyClamp01_le_one (x : ℚ) : pyClamp01 x ≤ 1 :=
  max_le (by norm_num) (min_le_left 1 x)

/-- The Python-`max` scan returns the first element attaining the maximal
score: a decomposition with strictly smaller scores before it and no larger
score anywhere. -/
theorem pyMax_first_argmax (l : List (String × ℚ)) (h : l ≠ []) :
    ∃ l₁ l₂ p, pyMax l = some p ∧ l = l₁ ++ p :: l₂ ∧
      (∀ y ∈ l, y.2 ≤ p.2) ∧ (∀ y ∈ l₁, y.2 < p.2) := by
  have step : ∀ (xs : List (String × ℚ)) (c : String × ℚ),
      (xs.foldl (fun c y => if c.2 < y.2 then y else c) c = c ∧
        ∀ y ∈ xs, y.2 ≤ c.2) ∨
      (∃ xs₁ xs₂ r, xs.foldl (fun c y => if c.2 < y.2 then y else c) c = r ∧
        xs = xs₁ ++ r :: xs₂ ∧ c.2 < r.2 ∧ (∀ y ∈ xs₁, y.2 < r.2) ∧
        (∀ y ∈ xs₂, y.2 ≤ r.2)) := by
    intro xs
    induction xs with
    | nil => intro c; exact Or.inl ⟨rfl, by simp⟩
    | cons y ys ih =>
        intro c
        by_cases hcy : c.2 < y.2
        · rcases ih y with ⟨heq, hall⟩ | ⟨ys₁, ys₂, r, heq, hdec, hlt, hbefore, hafter⟩
          · refine Or.inr ⟨[], ys, y, ?_, by simp, hcy, by simp, ?_⟩
            · simpa [List.foldl, if_pos hcy] using heq
            · exact hall
          · refine Or.inr ⟨y :: ys₁, ys₂, r, ?_, by simp [hdec], lt_trans hcy hlt, ?_, hafter⟩
            · simpa [List.foldl, if_pos hcy] using heq
            · intro z hz
              rcases List.mem_cons.mp hz with rfl | hz
              · exact hlt
              · exact hbefore z hz
        · rcases ih c with ⟨heq, hall⟩ | ⟨ys₁, ys₂, r, heq, hdec, hlt, hbefore, hafter⟩
          · refine Or.inl ⟨?_, ?_⟩
            · simpa [List.foldl, if_neg hcy] using heq
            · intro z hz
              rcases List.mem_cons.mp hz with rfl | hz
              · exact not_lt.mp hcy
              · exact hall z hz
          · refine Or.inr ⟨y :: ys₁, ys₂, r, ?_, by simp [hdec], hlt, ?_, hafter⟩
            · simpa [List.foldl, if_neg hcy] using heq
            · intro z hz
              rcases List.mem_cons.mp hz with rfl | hz
              · exact lt_of_le_of_lt (not_lt.mp hcy) hlt
              · exact hbefore z hz
  cases l with
  | nil => exact absurd rfl h
  | cons x xs =>
      rcases step xs x with ⟨heq, hall⟩ | ⟨xs₁, xs₂, r, heq, hdec, hlt, hbefore, hafter⟩
      · refine ⟨[], xs, x, ?_, by simp, ?_, by simp⟩
        · simp [pyMax, heq]
        · intro y hy
          rcases List.mem_cons.mp hy with rfl | hy
          · exact le_refl _
          · exact hall y hy
      · refine ⟨x :: xs₁, xs₂, r, ?_, by simp [hdec], ?_, ?_⟩
        · simp [pyMax, heq]
        · intro y hy
          rcases List.mem_cons.mp hy with rfl | hy
          · exact le_of_lt hlt
          · rw [hdec] at hy
            rcases List.mem_append.mp hy with hy | hy
            · exact le_of_lt (hbefore y hy)
            · rcases List.mem_cons.mp hy with rfl | hy
              · exact le_refl _
              · exact hafter y hy
        · intro y hy
          rcases List.mem_cons.mp hy with rfl | hy
          · exact hlt
          · exact hbefore y hy

/-- When the semantic branch contributes no records (the flag was off, the
FAISS manager is absent, the branch raised, or it produced zero surviving
hits), `search_memories` is exactly the keyword scan, sorted and truncated. -/
theorem searchMemories_fallback (store : Store) (q : String) (limit : Nat)
    (minImp : ℚ) (mtype : Option String) (useSem : Bool) (sem : MM.SemOutcome)
    (h : (MM.semPhase store minImp mtype useSem sem).1 = []) :
    MM.searchMemories store q limit minImp mtype useSem sem
      = (pySortDescBy (fun m => m.importance)
          (MM.keywordMatches store q minImp mtype)).take limit := by
  simp [MM.searchMemories, h]

/-- Membership in the keyword-scan result. -/
theorem mem_keywordMatches (store : Store) (q : String) (minImp : ℚ)
    (mtype : Option String) (m : Memory) :
    m ∈ MM.keywordMatches store q minImp mtype ↔
      ∃ i, (i, m) ∈ store ∧ MM.keywordMatch q m = true ∧
        MM.passesFilters m minImp mtype = true := by
  simp only [MM.keywordMatches, List.mem_map, List.mem_filter]
  constructor
  · rintro ⟨p, ⟨hp, hpc⟩, rfl⟩
    simp only [Bool.and_eq_true] at hpc
    exact ⟨p.1, hp, hpc.1, hpc.2⟩
  · rintro ⟨i, hi, h1, h2⟩
    refine ⟨(i, m), ⟨hi, ?_⟩, rfl⟩
    simp only [Bool.and_eq_true]
    exact ⟨h1, h2⟩

/-! ## Sample values used by the closed witnesses and counterexamples -/

/-- A concrete canonical record. -/
def coffeeMemory : Memory :=
  { id := "m1", content := "I like coffee", importance := 1/2, type := "其他"
    tags := [], created_at := 0, last_accessed := 0, access_count := 0
    decay := 0, metadata := [] }

/-- A second record matching the same keyword, lower importance. -/
def teaMemory : Memory :=
  { id := "m2", content := "I hate tea, coffee is better", importance := 1/4
    type := "其他", tags := [], created_at := 1, last_accessed := 1
    access_count := 0, decay := 0, metadata := [] }

/-- Same importance as `coffeeMemory` but created later (for the tie-break
counterexample). -/
def laterMemory : Memory :=
  { id := "m3", content := "coffee again", importance := 1/2, type := "其他"
    tags := [], created_at := 1, last_accessed := 1, access_count := 0
    decay := 0, metadata := [] }

/-- A concrete main.py record. -/
def sampleMainMemory : Main.MainMemory :=
  { id := "a", content := "I like coffee", importance := 1/2, type := "other"
    created_at := 0, last_accessed := 0, access_count := 0, keywords := [] }

/-! ## Claims -/

/-- C2: importance clamping.  In memory_manager.py `add_memory` the stored
importance is exactly `max(0.0, min(1.0, importance))` — so 1.7 stores 1.0 and
-0.3 stores 0.0, and every stored importance lies in [0,1].  In main.py
`add_memory`, however, the importance is stored exactly as supplied: 1.7 is
stored as 1.7, violating the claim for that variant (the code bug). -/
theorem C2_importance_clamping :
    (∀ (store : Store) (content : String) (importance : ℚ)
        (memoryType : Option String) (tags : List String)
        (metadata : List (String × String)) (autoClassify : Bool)
        (classifier : MM.ClassifyOutcome) (freshId : String) (now : ℚ),
      ∃ m, alistGet (MM.addMemory store content importance memoryType tags
            metadata autoClassify classifier freshId now).2 freshId = some m ∧
        m.importance = pyClamp01 importance ∧
        0 ≤ m.importance ∧ m.importance ≤ 1) ∧
    pyClamp01 (17/10) = 1 ∧ pyClamp01 (-3/10) = 0 ∧
    (∀ (store : Main.MainStore) (content : String) (importance : ℚ)
        (memoryType : Option String) (keywords : List String)
        (freshId : String) (now : ℚ),
      ∃ m, alistGet (Main.addMemory store content importance memoryType
            keywords freshId now).2 freshId = some m ∧
        m.importance = importance) ∧
    (∃ m, alistGet (Main.addMemory [] "x" (17/10) none [] "a" 0).2 "a"
        = some m ∧ m.importance = 17/10 ∧ m.importance ≠ 1) := by
  refine ⟨?_, by norm_num [pyClamp01], by norm_num [pyClamp01], ?_, ?_⟩
  · intro store content importance memoryType tags metadata autoClassify
      classifier freshId now
    refine ⟨_, alistGet_put_self store freshId _, rfl, ?_, ?_⟩
    · exact pyClamp01_nonneg importance
    · exact pyClamp01_le_one importance
  · intro store content importance memoryType keywords freshId now
    exact ⟨_, alistGet_put_self store freshId _, rfl⟩
  · refine ⟨_, alistGet_put_self [] "a" _, rfl, by norm_num⟩

/-- C3 counterexample: `add_memory` performs no content validation — adding
the empty string succeeds, returns the fresh id, and a record with empty
content is created in the canonical store (there is no `ValidationError`
anywhere in the source). -/
theorem C3_counterexample_empty_content_accepted :
    (MM.addMemory [] "" (1/2) none [] [] true none "id0" 0).1 = "id0" ∧
    ∃ m, alistGet (MM.addMemory [] "" (1/2) none [] [] true none "id0" 0).2
        "id0" = some m ∧ m.content = "" := by
  exact ⟨rfl, _, rfl, rfl⟩

/-- C3 (amended): for every call to add — including empty content, which is
not rejected — add returns the fresh id of a record now present in the
canonical store holding the supplied content, and leaves every other key
unchanged.  This holds for both the memory_manager.py and main.py variants. -/
theorem C3_amended_add_always_creates (store : Store) (mstore : Main.MainStore)
    (content : String) (importance : ℚ) (memoryType : Option String)
    (tags : List String) (metadata : List (String × String))
    (autoClassify : Bool) (classifier : MM.ClassifyOutcome)
    (freshId : String) (now : ℚ) :
    (MM.addMemory store content importance memoryType tags metadata
        autoClassify classifier freshId now).1 = freshId ∧
    (∃ m, alistGet (MM.addMemory store content importance memoryType tags
          metadata autoClassify classifier freshId now).2 freshId = some m ∧
        m.content = content ∧ m.id = freshId) ∧
    (∀ k, k ≠ freshId →
      alistGet (MM.addMemory store content importance memoryType tags metadata
          autoClassify classifier freshId now).2 k = alistGet store k) ∧
    (Main.addMemory mstore content importance memoryType tags freshId now).1
        = freshId ∧
    (∃ m, alistGet (Main.addMemory mstore content importance memoryType tags
          freshId now).2 freshId = some m ∧ m.content = content) ∧
    (∀ k, k ≠ freshId →
      alistGet (Main.addMemory mstore content importance memoryType tags
          freshId now).2 k = alistGet mstore k) := by
  refine ⟨rfl, ⟨_, alistGet_put_self store freshId _, rfl, rfl⟩, ?_, rfl,
    ⟨_, alistGet_put_self mstore freshId _, rfl⟩, ?_⟩
  · intro k hk
    exact alistGet_put_ne store freshId k _ hk
  · intro k hk
    exact alistGet_put_ne mstore freshId k _ hk

/-- C3 amended, witness at a concrete input. -/
theorem C3_amended_witness :
    alistGet (MM.addMemory [(
      "m1", coffeeMemory)] "hello" (1/2) none [] [] true none "id0" 0).2 "m1"
        = some coffeeMemory := by
  have h := (C3_amended_add_always_creates [("m1", coffeeMemory)] [] "hello"
      (1/2) none [] [] true none "id0" 0).2.2.1 "m1" (by decide)
  rw [h]
  rfl

/-- C4: delete idempotence.  `delete_memory` returns exactly "was the id
present", removes the record (leaving all other keys untouched), is a no-op
on the whole state for a missing id, and a second delete of the same id
returns false.  The function is total — the source has no raising path. -/
theorem C4_delete_idempotent (store : Main.MainStore) (assoc : Main.Assoc)
    (memoryId : String) :
    (Main.deleteMemory store assoc memoryId).1
        = (alistGet store memoryId).isSome ∧
    alistGet (Main.deleteMemory store assoc memoryId).2.1 memoryId = none ∧
    (∀ k, k ≠ memoryId →
      alistGet (Main.deleteMemory store assoc memoryId).2.1 k
        = alistGet store k) ∧
    ((alistGet store memoryId).isSome = false →
      Main.deleteMemory store assoc memoryId = (false, store, assoc)) ∧
    (Main.deleteMemory (Main.deleteMemory store assoc memoryId).2.1
        (Main.deleteMemory store assoc memoryId).2.2 memoryId).1 = false := by
  cases hml : alistGet store memoryId with
  | none =>
      refine ⟨?_, ?_, ?_, ?_, ?_⟩ <;>
        simp [Main.deleteMemory, hml]
  | some m =>
      have hdel : Main.deleteMemory store assoc memoryId
          = (true, alistDel store memoryId,
              match alistGet assoc memoryId with
              | some row =>
                  alistDel ((alistKeys row).foldl
                    (fun a rid => Main.removeAssociation a memoryId rid) assoc)
                    memoryId
              | none => assoc) := by
        simp [Main.deleteMemory, hml]
      refine ⟨?_, ?_, ?_, ?_, ?_⟩
      · rw [hdel]; rfl
      · rw [hdel]; exact alistGet_del_self store memoryId
      · intro k hk
        rw [hdel]
        exact alistGet_del_ne store memoryId k hk
      · intro hfalse
        simp at hfalse
      · rw [hdel]
        simp [Main.deleteMemory, alistGet_del_self store memoryId]

/-- C4, witness: on a one-record store, delete returns true then false, and
deleting a missing id leaves everything unchanged. -/
theorem C4_witness :
    (Main.deleteMemory [("a", sampleMainMemory)] [] "a").1 = true ∧
    (Main.deleteMemory (Main.deleteMemory [("a", sampleMainMemory)] [] "a").2.1
        (Main.deleteMemory [("a", sampleMainMemory)] [] "a").2.2 "a").1
        = false ∧
    Main.deleteMemory [("a", sampleMainMemory)] [] "zz"
        = (false, [("a", sampleMainMemory)], []) := by
  refine ⟨?_, ?_, ?_⟩
  · have h := (C4_delete_idempotent [("a", sampleMainMemory)] [] "a").1
    rw [h]; rfl
  · exact (C4_delete_idempotent [("a", sampleMainMemory)] [] "a").2.2.2.2
  · exact (C4_delete_idempotent [("a", sampleMainMemory)] [] "zz").2.2.2.1
      (by rfl)

/-- C7 counterexample: `MemoryAssociationManager.add_association` in main.py
does not check that the endpoints exist — called on an empty association
store it auto-creates both endpoints, writes the edge in both directions and
returns `True`, where the claim demands `false` and an unchanged graph. -/
theorem C7_counterexample_main_autocreates_endpoints :
    (Main.addAssociation [] "a" "b" 1).1 = true ∧
    (Main.addAssociation [] "a" "b" 1).2
      = [("a", [("b", 1)]), ("b", [("a", 1)])] := by
  constructor
  · rfl
  · rfl

/-- C7 (amended): `MemoryGraph.add_association` in memory_graph.py returns
true exactly when both endpoints are nodes of the graph, leaves the graph
unchanged (returning false) when either endpoint is absent, and preserves the
invariant that every edge connects existing nodes; by contrast, main.py's
`MemoryAssociationManager.add_association` auto-creates missing endpoints and
always returns true. -/
theorem C7_amended_edge_requires_endpoints (g : GraphState)
    (id1 id2 relationType : String) (strength : ℚ) :
    ((GraphState.addAssociation g id1 id2 relationType strength).1 = true ↔
      (id1 ∈ g.nodes ∧ id2 ∈ g.nodes)) ∧
    (¬(id1 ∈ g.nodes ∧ id2 ∈ g.nodes) →
      GraphState.addAssociation g id1 id2 relationType strength = (false, g)) ∧
    ((∀ e ∈ g.edges, e.1 ∈ g.nodes ∧ e.2.1 ∈ g.nodes) →
      ∀ e ∈ (GraphState.addAssociation g id1 id2 relationType strength).2.edges,
        e.1 ∈ (GraphState.addAssociation g id1 id2 relationType strength).2.nodes ∧
        e.2.1 ∈ (GraphState.addAssociation g id1 id2 relationType strength).2.nodes) ∧
    (∀ (assoc : Main.Assoc) (a b : String) (s : ℚ),
      (Main.addAssociation assoc a b s).1 = true) := by
  by_cases h : id1 ∈ g.nodes ∧ id2 ∈ g.nodes
  · refine ⟨by simp [GraphState.addAssociation, h], fun hc => absurd h hc,
      ?_, fun _ _ _ _ => rfl⟩
    intro hinv e he
    have hnodes : (GraphState.addAssociation g id1 id2 relationType strength).2.nodes
        = g.nodes := by
      simp [GraphState.addAssociation, h]
    rw [hnodes]
    have hedges : (GraphState.addAssociation g id1 id2 relationType strength).2.edges
        = (if g.edges.any (fun e => sameEdge e.1 e.2.1 id1 id2) then
            g.edges.map (fun e =>
              if sameEdge e.1 e.2.1 id1 id2 then (e.1, e.2.1, relationType, strength)
              else e)
          else g.edges ++ [(id1, id2, relationType, strength)]) := by
      simp [GraphState.addAssociation, h]
    rw [hedges] at he
    by_cases hany : g.edges.any (fun e => sameEdge e.1 e.2.1 id1 id2)
    · rw [if_pos hany] at he
      rcases List.mem_map.mp he with ⟨e₀, he₀, hmap⟩
      by_cases hse : sameEdge e₀.1 e₀.2.1 id1 id2
      · rw [if_pos hse] at hmap
        rw [← hmap]
        exact ⟨(hinv e₀ he₀).1, (hinv e₀ he₀).2⟩
      · rw [if_neg hse] at hmap
        rw [← hmap]
        exact hinv e₀ he₀
    · rw [if_neg hany] at he
      rcases List.mem_append.mp he with he | he
      · exact hinv e he
      · rcases List.mem_singleton.mp he with rfl
        exact ⟨h.1, h.2⟩
  · refine ⟨by simp [GraphState.addAssociation, h], fun _ => ?_,
      ?_, fun _ _ _ _ => rfl⟩
    · simp [GraphState.addAssociation, h]
    · intro hinv e he
      have hsame : GraphState.addAssociation g id1 id2 relationType strength
          = (false, g) := by
        simp [GraphState.addAssociation, h]
      rw [hsame] at he ⊢
      exact hinv e he

/-- C7 amended, witness: on a graph with a single node "a", adding an edge to
the absent "b" fails and changes nothing; main.py's manager returns true. -/
theorem C7_amended_witness :
    GraphState.addAssociation ⟨["a"], []⟩ "a" "b" "related" 1
        = (false, ⟨["a"], []⟩) ∧
    (Main.addAssociation [] "x" "y" 1).1 = true := by
  constructor
  · exact (C7_amended_edge_requires_endpoints ⟨["a"], []⟩ "a" "b" "related" 1).2.1
      (by decide)
  · exact (C7_amended_edge_requires_endpoints ⟨["a"], []⟩ "a" "b" "related" 1).2.2.2
      [] "x" "y" 1

/-- C8: auto-classification argmax.  When `add_memory` auto-classifies (no
type supplied, classifier available, classification succeeds with a non-empty
score mapping of non-empty category names), the stored type is the first
category of the mapping attaining the maximal score — Python's `max` over the
insertion-ordered dict items replaces the current maximum only on a strictly
greater score, so ties go to the category that comes first in category-set
enumeration order. -/
theorem C8_autoclassify_first_argmax (store : Store) (content : String)
    (importance : ℚ) (tags : List String) (metadata : List (String × String))
    (freshId : String) (now : ℚ) (scores : List (String × ℚ))
    (hne : scores ≠ []) (hcat : ∀ p ∈ scores, p.1 ≠ "") :
    ∃ m l₁ l₂ s,
      alistGet (MM.addMemory store content importance none tags metadata true
          (some (Except.ok scores)) freshId now).2 freshId = some m ∧
      scores = l₁ ++ (m.type, s) :: l₂ ∧
      (∀ y ∈ scores, y.2 ≤ s) ∧
      (∀ y ∈ l₁, y.2 < s) := by
  rcases pyMax_first_argmax scores hne with ⟨l₁, l₂, p, hmax, hdec, hle, hlt⟩
  have hp : p ∈ scores := by
    rw [hdec]
    exact List.mem_append.mpr (Or.inr (List.mem_cons_self _ _))
  have htype : MM.pyOrOther (MM.computeType none true (some (Except.ok scores)))
      = p.1 := by
    have h1 : MM.computeType none true (some (Except.ok scores)) = some p.1 := by
      simp [MM.computeType, hmax]
    rw [h1]
    simp [MM.pyOrOther, hcat p hp]
  refine ⟨_, l₁, l₂, p.2, alistGet_put_self store freshId _, ?_, hle, hlt⟩
  show scores = l₁ ++ ((Memory.mk freshId content (pyClamp01 importance)
      (MM.pyOrOther (MM.computeType none true (some (Except.ok scores))))
      tags now now 0 0 metadata).type, p.2) :: l₂
  rw [show (Memory.mk freshId content (pyClamp01 importance)
      (MM.pyOrOther (MM.computeType none true (some (Except.ok scores))))
      tags now now 0 0 metadata).type
    = MM.pyOrOther (MM.computeType none true (some (Except.ok scores))) from rfl]
  rw [htype]
  simpa using hdec

/-- C8, witness: a tie between "事实" (first) and "观点" at score 0.5 is
resolved to "事实". -/
theorem C8_witness :
    (3 : ℚ) / 10 ≤ 1 ∧
    ∃ m l₁ l₂ s,
      alistGet (MM.addMemory [] "今天是晴天" (1/2) none [] [] true
          (some (Except.ok [("事实", 1/2), ("观点", 1/2), ("其他", 3/10)]))
          "id8" 0).2 "id8" = some m ∧
      ([("事实", (1:ℚ)/2), ("观点", 1/2), ("其他", 3/10)]
          = l₁ ++ (m.type, s) :: l₂) ∧
      (∀ y ∈ [("事实", (1:ℚ)/2), ("观点", 1/2), ("其他", 3/10)], y.2 ≤ s) ∧
      (∀ y ∈ l₁, y.2 < s) := by
  refine ⟨by norm_num, ?_⟩
  exact C8_autoclassify_first_argmax [] "今天是晴天" (1/2) [] [] "id8" 0
    [("事实", 1/2), ("观点", 1/2), ("其他", 3/10)] (by decide)
    (by intro p hp; fin_cases hp <;> decide)

/-- The head surviving a `dropWhile` fails the predicate. -/
theorem dropWhile_head_false (p : α → Bool) (l : List α)
    (h : l.dropWhile p ≠ []) : p ((l.dropWhile p).head h) = false := by
  induction l with
  | nil => simp at h
  | cons a t ih =>
      by_cases hp : p a
      · have he : (a :: t).dropWhile p = t.dropWhile p := by
          simp [List.dropWhile_cons, hp]
        have h' : t.dropWhile p ≠ [] := by
          rw [he] at h; exact h
        have := ih h'
        rw [show (a :: t).dropWhile p ≠ [] → ((a :: t).dropWhile p).head h
            = (t.dropWhile p).head h' from by
          intro _
          congr 1]
        · exact this
        · exact h
      · have he : (a :: t).dropWhile p = a :: t := by
          simp [List.dropWhile_cons, hp]
        have : ((a :: t).dropWhile p).head h = a := by
          simp [he]
        rw [this]
        exact Bool.of_not_eq_true hp

/-- A non-empty trimmed fragment contains a non-whitespace character. -/
theorem charTrim_has_nonws (l : List Char)
    (h : Extractor.charTrim l ≠ []) :
    ∃ ch ∈ Extractor.charTrim l, ¬ ch.isWhitespace := by
  have hdne :
      (l.dropWhile Char.isWhitespace).reverse.dropWhile Char.isWhitespace
        ≠ [] := by
    intro h0
    apply h
    unfold Extractor.charTrim
    rw [h0]
    rfl
  refine ⟨((l.dropWhile Char.isWhitespace).reverse.dropWhile
      Char.isWhitespace).head hdne, ?_, ?_⟩
  · unfold Extractor.charTrim
    exact List.mem_reverse.mpr (List.head_mem hdne)
  · have hhead := dropWhile_head_false Char.isWhitespace
      (l.dropWhile Char.isWhitespace).reverse hdne
    simp [hhead]

/-- C10: every candidate emitted by `extract_from_text` has non-empty,
not-all-whitespace content (fragments are stripped and empty ones filtered
out), and its importance lies between the configured extraction threshold and
1.0 (the score is emitted only when `importance >= min_importance`, and
`_calculate_importance` caps at 1.0). -/
theorem C10_extractor_candidate_bounds (minImportance : ℚ)
    (kwExtract : Option (List Char → List String)) (text : List Char)
    (context : List Extractor.Turn) (c : Extractor.Candidate)
    (hc : c ∈ Extractor.extractFromText minImportance kwExtract text context) :
    c.content ≠ [] ∧ (∃ ch ∈ c.content, ¬ ch.isWhitespace) ∧
    minImportance ≤ c.importance ∧ c.importance ≤ 1 := by
  rcases List.mem_filterMap.mp hc with ⟨sentence, hs, hf⟩
  by_cases hge : minImportance ≤ Extractor.calculateImportance sentence context
  · rw [if_pos hge] at hf
    have hceq := Option.some.inj hf
    subst hceq
    rcases List.mem_filter.mp hs with ⟨hs', hne⟩
    rcases List.mem_map.mp hs' with ⟨frag, _, htrim⟩
    refine ⟨?_, ?_, ?_, ?_⟩
    · simpa using hne
    · show ∃ ch ∈ sentence, ¬ ch.isWhitespace
      rw [← htrim]
      exact charTrim_has_nonws frag (by rw [htrim]; simpa using hne)
    · exact hge
    · show Extractor.calculateImportance sentence context ≤ 1
      unfold Extractor.calculateImportance
      exact min_le_right _ 1
  · rw [if_neg hge] at hf
    simp at hf

/-- C10, witness: "我喜欢咖啡。" yields one candidate with the expected
bounds. -/
theorem C10_witness :
    Extractor.Candidate.mk "我喜欢咖啡".toList (6/10) "用户偏好" []
        ∈ Extractor.extractFromText (3/10) none "我喜欢咖啡。".toList [] ∧
      (Extractor.Candidate.mk "我喜欢咖啡".toList (6/10) "用户偏好" []).content
          ≠ [] ∧
      (∃ ch ∈ (Extractor.Candidate.mk "我喜欢咖啡".toList (6/10) "用户偏好"
          []).content, ¬ ch.isWhitespace) ∧
      (3 : ℚ)/10 ≤ (Extractor.Candidate.mk "我喜欢咖啡".toList (6/10) "用户偏好"
          []).importance ∧
      (Extractor.Candidate.mk "我喜欢咖啡".toList (6/10) "用户偏好"
          []).importance ≤ 1 := by
  have hsent : Extractor.splitIntoSentences "我喜欢咖啡。".toList
      = ["我喜欢咖啡".toList] := by decide
  have himp : Extractor.calculateImportance "我喜欢咖啡".toList [] = 6/10 := by
    have h1 : Extractor.hasAnyWord "我喜欢咖啡".toList
        ["我", "你", "他", "她", "我们", "你们", "他们"] = true := by decide
    have h2 : Extractor.hasAnyWord "我喜欢咖啡".toList
        ["喜欢", "讨厌", "爱", "恨", "开心", "难过", "生气", "害怕"] = true := by
      decide
    have h3 : Extractor.hasAnyWord "我喜欢咖啡".toList
        ["记得", "知道", "认为", "觉得", "想要", "需要", "希望"] = false := by
      decide
    have h4 : "我喜欢咖啡".toList.any Char.isDigit = false := by decide
    simp only [Extractor.calculateImportance, Extractor.lastUserMessage,
      h1, h2, h3, h4, if_true, if_false, ne_eq, not_true_eq_false]
    norm_num
  have hext : Extractor.extractFromText (3/10) none "我喜欢咖啡。".toList []
      = [Extractor.Candidate.mk "我喜欢咖啡".toList (6/10) "用户偏好" []] := by
    have hty : Extractor.determineMemoryType "我喜欢咖啡".toList = "用户偏好" := by
      decide
    simp only [Extractor.extractFromText, hsent, himp, List.filterMap_cons,
      List.filterMap_nil, hty]
    rw [if_pos (by norm_num : (3 : ℚ)/10 ≤ 6/10)]
  have hmem : Extractor.Candidate.mk "我喜欢咖啡".toList (6/10) "用户偏好" []
      ∈ Extractor.extractFromText (3/10) none "我喜欢咖啡。".toList [] := by
    rw [hext]
    exact List.mem_singleton.mpr rfl
  exact ⟨hmem,
    C10_extractor_candidate_bounds (3/10) none "我喜欢咖啡。".toList [] _ hmem⟩

/-- C1 counterexample: `search_memories` truncates to `limit`, so even with a
raising embedding provider it does not return "every record whose content
contains the query and passes the filters": with two matching records and
`limit = 1`, the lower-importance match is a filtered keyword match yet absent
from the result. -/
theorem C1_counterexample_truncation_drops_match :
    teaMemory ∈ MM.keywordMatches
      [("m1", coffeeMemory), ("m2", teaMemory)] "coffee" 0 none ∧
    teaMemory ∉ MM.searchMemories [("m1", coffeeMemory), ("m2", teaMemory)]
      "coffee" 1 0 none true (some (Except.error ())) := by
  have hkw1 : MM.keywordMatch "coffee" coffeeMemory = true := by decide
  have hkw2 : MM.keywordMatch "coffee" teaMemory = true := by decide
  have hpf1 : MM.passesFilters coffeeMemory 0 none = true := by
    unfold MM.passesFilters
    rw [if_neg (by norm_num [coffeeMemory])]
  have hpf2 : MM.passesFilters teaMemory 0 none = true := by
    unfold MM.passesFilters
    rw [if_neg (by norm_num [teaMemory])]
  have hkm : MM.keywordMatches [("m1", coffeeMemory), ("m2", teaMemory)]
      "coffee" 0 none = [coffeeMemory, teaMemory] := by
    simp [MM.keywordMatches, List.filter_cons, hkw1, hkw2, hpf1, hpf2]
  have hsort : pySortDescBy (fun m : Memory => m.importance)
      [coffeeMemory, teaMemory] = [coffeeMemory, teaMemory] := by
    show insertDesc (fun m : Memory => m.importance) coffeeMemory
      (insertDesc (fun m : Memory => m.importance) teaMemory []) = _
    rw [show insertDesc (fun m : Memory => m.importance) teaMemory []
        = [teaMemory] from rfl]
    unfold insertDesc
    rw [if_neg (by norm_num [coffeeMemory, teaMemory])]
  have hsearch : MM.searchMemories [("m1", coffeeMemory), ("m2", teaMemory)]
      "coffee" 1 0 none true (some (Except.error ())) = [coffeeMemory] := by
    rw [searchMemories_fallback [("m1", coffeeMemory), ("m2", teaMemory)]
      "coffee" 1 0 none true (some (Except.error ())) rfl, hkm, hsort]
    rfl
  have hne : teaMemory ≠ coffeeMemory := by
    intro h
    have := congrArg Memory.id h
    simp [teaMemory, coffeeMemory] at this
  constructor
  · rw [hkm]
    simp
  · rw [hsearch]
    simp [hne]

/-- C1 (amended): when the semantic branch contributes nothing (it raised, or
yielded zero surviving matches, or was unavailable/disabled), search performs
the case-insensitive substring keyword scan: every returned record is a
keyword/filter match, the keyword matches are exactly the records whose
lowercased content contains the lowercased query and which pass the
min_importance/type filters, and — up to the `limit` truncation, i.e.
whenever the number of matches is at most `limit` — every matching record is
returned. -/
theorem C1_amended_keyword_fallback (store : Store) (q : String) (limit : Nat)
    (minImp : ℚ) (mtype : Option String) (useSem : Bool) (sem : MM.SemOutcome)
    (hfall : (MM.semPhase store minImp mtype useSem sem).1 = []) :
    (∀ m ∈ MM.searchMemories store q limit minImp mtype useSem sem,
      m ∈ MM.keywordMatches store q minImp mtype) ∧
    (∀ m, m ∈ MM.keywordMatches store q minImp mtype ↔
      ∃ i, (i, m) ∈ store ∧ MM.keywordMatch q m = true ∧
        MM.passesFilters m minImp mtype = true) ∧
    ((MM.keywordMatches store q minImp mtype).length ≤ limit →
      ∀ m ∈ MM.keywordMatches store q minImp mtype,
        m ∈ MM.searchMemories store q limit minImp mtype useSem sem) := by
  have hs := searchMemories_fallback store q limit minImp mtype useSem sem hfall
  have hperm := pySortDescBy_perm (fun m : Memory => m.importance)
      (MM.keywordMatches store q minImp mtype)
  refine ⟨?_, fun m => mem_keywordMatches store q minImp mtype m, ?_⟩
  · intro m hm
    rw [hs] at hm
    exact hperm.mem_iff.mp (List.mem_of_mem_take hm)
  · intro hlen m hm
    rw [hs]
    have hfull : (pySortDescBy (fun m : Memory => m.importance)
        (MM.keywordMatches store q minImp mtype)).take limit
        = pySortDescBy (fun m : Memory => m.importance)
            (MM.keywordMatches store q minImp mtype) := by
      apply List.take_of_length_le
      rw [hperm.length_eq]
      exact hlen
    rw [hfull]
    exact hperm.mem_iff.mpr hm

/-- The keyword scan on the one-record coffee store. -/
theorem coffeeMatches_singleton :
    MM.keywordMatches [("m1", coffeeMemory)] "coffee" 0 none
      = [coffeeMemory] := by
  have hkw : MM.keywordMatch "coffee" coffeeMemory = true := by decide
  have hpf : MM.passesFilters coffeeMemory 0 none = true := by
    unfold MM.passesFilters
    rw [if_neg (by norm_num [coffeeMemory])]
  simp [MM.keywordMatches, List.filter_cons, hkw, hpf]

/-- C1 amended, witness: with a raising provider, searching "coffee" on a
store holding one matching record returns that record. -/
theorem C1_amended_witness :
    (MM.semPhase [("m1", coffeeMemory)] 0 none true
        (some (Except.error ()))).1 = [] ∧
    coffeeMemory ∈ MM.searchMemories [("m1", coffeeMemory)] "coffee" 5 0 none
        true (some (Except.error ())) := by
  refine ⟨rfl, ?_⟩
  have h := (C1_amended_keyword_fallback [("m1", coffeeMemory)] "coffee" 5 0
      none true (some (Except.error ())) rfl).2.2
  apply h
  · rw [coffeeMatches_singleton]
    norm_num
  · rw [coffeeMatches_singleton]
    simp

/-- C5 counterexample: `search_memories` sorts by the raw stored importance
only — no time-decay, no created_at tie-break.  On two matching records of
equal stored importance where the second was created later, the code keeps
store order (older first) while the spec ranking (effective importance with
decay, ties to most-recent created_at) puts the newer record first. -/
theorem C5_counterexample_no_decay_no_tiebreak :
    MM.searchMemories [("m1", coffeeMemory), ("m3", laterMemory)] "coffee" 5 0
        none true (some (Except.error ())) = [coffeeMemory, laterMemory] ∧
    specSearchRanking 1 (MM.keywordMatches [("m1", coffeeMemory),
        ("m3", laterMemory)] "coffee" 0 none) 5
      = [laterMemory, coffeeMemory] ∧
    MM.searchMemories [("m1", coffeeMemory), ("m3", laterMemory)] "coffee" 5 0
        none true (some (Except.error ()))
      ≠ specSearchRanking 1 (MM.keywordMatches [("m1", coffeeMemory),
          ("m3", laterMemory)] "coffee" 0 none) 5 := by
  have hkw1 : MM.keywordMatch "coffee" coffeeMemory = true := by decide
  have hkw3 : MM.keywordMatch "coffee" laterMemory = true := by decide
  have hpf1 : MM.passesFilters coffeeMemory 0 none = true := by
    unfold MM.passesFilters
    rw [if_neg (by norm_num [coffeeMemory])]
  have hpf3 : MM.passesFilters laterMemory 0 none = true := by
    unfold MM.passesFilters
    rw [if_neg (by norm_num [laterMemory])]
  have hkm : MM.keywordMatches [("m1", coffeeMemory), ("m3", laterMemory)]
      "coffee" 0 none = [coffeeMemory, laterMemory] := by
    simp [MM.keywordMatches, List.filter_cons, hkw1, hkw3, hpf1, hpf3]
  have hcode : MM.searchMemories [("m1", coffeeMemory), ("m3", laterMemory)]
      "coffee" 5 0 none true (some (Except.error ()))
      = [coffeeMemory, laterMemory] := by
    rw [searchMemories_fallback [("m1", coffeeMemory), ("m3", laterMemory)]
      "coffee" 5 0 none true (some (Except.error ())) rfl, hkm]
    have hsort : pySortDescBy (fun m : Memory => m.importance)
        [coffeeMemory, laterMemory] = [coffeeMemory, laterMemory] := by
      show insertDesc (fun m : Memory => m.importance) coffeeMemory
        (insertDesc (fun m : Memory => m.importance) laterMemory []) = _
      rw [show insertDesc (fun m : Memory => m.importance) laterMemory []
          = [laterMemory] from rfl]
      unfold insertDesc
      rw [if_neg (by norm_num [coffeeMemory, laterMemory])]
    rw [hsort]
    rfl
  have hspec : specSearchRanking 1 (MM.keywordMatches [("m1", coffeeMemory),
      ("m3", laterMemory)] "coffee" 0 none) 5
      = [laterMemory, coffeeMemory] := by
    rw [hkm]
    unfold specSearchRanking
    have hsort1 : pySortDescBy (fun m : Memory => m.created_at)
        [coffeeMemory, laterMemory] = [laterMemory, coffeeMemory] := by
      show insertDesc (fun m : Memory => m.created_at) coffeeMemory
        (insertDesc (fun m : Memory => m.created_at) laterMemory []) = _
      rw [show insertDesc (fun m : Memory => m.created_at) laterMemory []
          = [laterMemory] from rfl]
      unfold insertDesc
      rw [if_pos (by norm_num [coffeeMemory, laterMemory])]
      rfl
    rw [hsort1]
    have hsort2 : pySortDescBy (fun m : Memory => specEffectiveImportance 1 m)
        [laterMemory, coffeeMemory] = [laterMemory, coffeeMemory] := by
      show insertDesc (fun m : Memory => specEffectiveImportance 1 m) laterMemory
        (insertDesc (fun m : Memory => specEffectiveImportance 1 m)
          coffeeMemory []) = _
      rw [show insertDesc (fun m : Memory => specEffectiveImportance 1 m)
          coffeeMemory [] = [coffeeMemory] from rfl]
      unfold insertDesc
      rw [if_neg (by
        norm_num [specEffectiveImportance, laterMemory, coffeeMemory, min_def])]
    rw [hsort2]
    rfl
  have hne : coffeeMemory ≠ laterMemory := by
    intro h
    have := congrArg Memory.id h
    simp [coffeeMemory, laterMemory] at this
  refine ⟨hcode, hspec, ?_⟩
  rw [hcode, hspec]
  intro h
  exact hne (by injection h)

/-- C5 (amended): when the semantic branch contributes nothing, the search
result is sorted descending by the raw stored importance (no decay applied),
has at most `limit` elements, contains only keyword/filter matches, and is
stable: ties keep store (dict-insertion) order — in particular when all
matches share one importance the result is exactly the first `limit` matches
in store order.  The created_at tie-break and the decay ranking of the claim
do not exist in this code path. -/
theorem C5_amended_sort_by_raw_importance (store : Store) (q : String)
    (limit : Nat) (minImp : ℚ) (mtype : Option String) (useSem : Bool)
    (sem : MM.SemOutcome)
    (hfall : (MM.semPhase store minImp mtype useSem sem).1 = []) :
    (MM.searchMemories store q limit minImp mtype useSem sem).Pairwise
      (fun a b => b.importance ≤ a.importance) ∧
    (MM.searchMemories store q limit minImp mtype useSem sem).length ≤ limit ∧
    (∀ m ∈ MM.searchMemories store q limit minImp mtype useSem sem,
      m ∈ MM.keywordMatches store q minImp mtype) ∧
    ((∀ a ∈ MM.keywordMatches store q minImp mtype,
        ∀ b ∈ MM.keywordMatches store q minImp mtype,
        a.importance = b.importance) →
      MM.searchMemories store q limit minImp mtype useSem sem
        = (MM.keywordMatches store q minImp mtype).take limit) := by
  have hs := searchMemories_fallback store q limit minImp mtype useSem sem hfall
  have hperm := pySortDescBy_perm (fun m : Memory => m.importance)
      (MM.keywordMatches store q minImp mtype)
  refine ⟨?_, ?_, ?_, ?_⟩
  · rw [hs]
    exact List.Pairwise.sublist (List.take_sublist _ _)
      (pySortDescBy_sorted (fun m : Memory => m.importance) _)
  · rw [hs]
    exact List.length_take_le _ _
  · intro m hm
    rw [hs] at hm
    exact hperm.mem_iff.mp (List.mem_of_mem_take hm)
  · intro hconst
    rw [hs]
    cases hkm : MM.keywordMatches store q minImp mtype with
    | nil => simp [pySortDescBy]
    | cons a t =>
        have : pySortDescBy (fun m : Memory => m.importance) (a :: t)
            = a :: t := by
          apply pySortDescBy_const _ a.importance
          intro x hx
          rw [← hkm] at hx
          exact hconst x hx a (by rw [hkm]; simp)
        rw [this]

/-- C5 amended, witness: singleton store, both hypotheses discharged. -/
theorem C5_amended_witness :
    (MM.searchMemories [("m1", coffeeMemory)] "coffee" 5 0 none true
        (some (Except.error ()))).length ≤ 5 ∧
    MM.searchMemories [("m1", coffeeMemory)] "coffee" 5 0 none true
        (some (Except.error ()))
      = (MM.keywordMatches [("m1", coffeeMemory)] "coffee" 0 none).take 5 := by
  have h := C5_amended_sort_by_raw_importance [("m1", coffeeMemory)] "coffee"
    5 0 none true (some (Except.error ())) rfl
  refine ⟨h.2.1, h.2.2.2 ?_⟩
  intro a ha b hb
  rw [coffeeMatches_singleton] at ha hb
  rw [List.mem_singleton.mp ha, List.mem_singleton.mp hb]

/-- `FAISSManager.add_memory` can only add its own id to the forward
mapping. -/
theorem faissAdd_keys (fs : FaissState) (embedOk : String → Bool)
    (i : String) (c : String) (x : String)
    (hx : x ∈ alistKeys ((fs.addMemory embedOk i c).1).id_to_index) :
    x = i ∨ x ∈ alistKeys fs.id_to_index := by
  unfold FaissState.addMemory at hx
  by_cases he : embedOk c
  · rw [if_pos he] at hx
    exact mem_keys_put fs.id_to_index i fs.ntotal x hx
  · rw [if_neg he] at hx
    exact Or.inr hx

/-- `FAISSManager.remove_memory` only removes; the removed id is gone. -/
theorem faissRemove_keys (fs : FaissState) (i : String) (x : String)
    (hx : x ∈ alistKeys ((fs.removeMemory i).1).id_to_index) :
    x ∈ alistKeys fs.id_to_index ∧ x ≠ i := by
  unfold FaissState.removeMemory at hx
  cases hg : alistGet fs.id_to_index i with
  | none =>
      rw [hg] at hx
      refine ⟨hx, ?_⟩
      intro hxi
      subst hxi
      exact (alistGet_none_iff fs.id_to_index x).mp hg hx
  | some idx =>
      rw [hg] at hx
      have := (mem_keys_del fs.id_to_index i x).mp (by
        simpa [alistDel] using hx)
      exact this

/-- The addition pass of `_sync_auxiliary_storage` (FAISS side) introduces
only ids drawn from the iterated list. -/
theorem syncFaissAdd_keys (store : Store) (faissIds : List String)
    (embedOk : String → Bool) :
    ∀ (L : List String) (fs : FaissState),
      ∀ x ∈ alistKeys ((L.foldl (fun s i =>
          if i ∉ faissIds then
            match alistGet store i with
            | some m => (s.addMemory embedOk i m.content).1
            | none => s
          else s) fs).id_to_index),
        x ∈ alistKeys fs.id_to_index ∨ x ∈ L := by
  intro L
  induction L with
  | nil => intro fs x hx; exact Or.inl hx
  | cons i T ih =>
      intro fs x hx
      rw [List.foldl_cons] at hx
      rcases ih _ x hx with hx' | hx'
      · by_cases hf : i ∉ faissIds
        · rw [if_pos hf] at hx'
          cases hg : alistGet store i with
          | none =>
              rw [hg] at hx'
              exact Or.inl hx'
          | some m =>
              rw [hg] at hx'
              rcases faissAdd_keys fs embedOk i m.content x hx' with rfl | h
              · exact Or.inr (by simp)
              · exact Or.inl h
        · rw [if_neg hf] at hx'
          exact Or.inl hx'
      · exact Or.inr (by simp [hx'])

/-- The removal pass of `_sync_auxiliary_storage` (FAISS side): every
surviving id was already mapped, and an iterated id survives only if it is
canonical. -/
theorem syncFaissRemove_keys (memoryIds : List String) :
    ∀ (L : List String) (fs : FaissState),
      ∀ x ∈ alistKeys ((L.foldl (fun s i =>
          if i ∉ memoryIds then (s.removeMemory i).1 else s) fs).id_to_index),
        x ∈ alistKeys fs.id_to_index ∧ (x ∉ L ∨ x ∈ memoryIds) := by
  intro L
  induction L with
  | nil => intro fs x hx; exact ⟨hx, Or.inl (List.not_mem_nil x)⟩
  | cons i T ih =>
      intro fs x hx
      rw [List.foldl_cons] at hx
      rcases ih _ x hx with ⟨hx', hT⟩
      by_cases hm : i ∉ memoryIds
      · rw [if_pos hm] at hx'
        rcases faissRemove_keys fs i x hx' with ⟨hfs, hne⟩
        refine ⟨hfs, ?_⟩
        rcases hT with hT | hT
        · exact Or.inl (by simp [hne, hT])
        · exact Or.inr hT
      · rw [if_neg hm] at hx'
        refine ⟨hx', ?_⟩
        rcases hT with hT | hT
        · by_cases hxi : x = i
          · subst hxi
            exact Or.inr (not_not.mp hm)
          · exact Or.inl (by simp [hxi, hT])
        · exact Or.inr hT

/-- `graph.add_node` can only add its own id. -/
theorem graphAdd_nodes (g : GraphState) (i x : String)
    (hx : x ∈ (g.addMemoryNode i).nodes) : x = i ∨ x ∈ g.nodes := by
  unfold GraphState.addMemoryNode at hx
  by_cases hi : i ∈ g.nodes
  · rw [if_pos hi] at hx
    exact Or.inr hx
  · rw [if_neg hi] at hx
    rcases List.mem_append.mp hx with hx | hx
    · exact Or.inr hx
    · exact Or.inl (List.mem_singleton.mp hx)

/-- `remove_node` only removes; the removed id is gone. -/
theorem graphRemove_nodes (g : GraphState) (i x : String)
    (hx : x ∈ (g.removeMemoryNode i).nodes) : x ∈ g.nodes ∧ x ≠ i := by
  unfold GraphState.removeMemoryNode at hx
  by_cases hi : i ∈ g.nodes
  · rw [if_pos hi] at hx
    rcases List.mem_filter.mp hx with ⟨hmem, hne⟩
    exact ⟨hmem, by simpa using hne⟩
  · rw [if_neg hi] at hx
    refine ⟨hx, ?_⟩
    intro hxi
    subst hxi
    exact hi hx

/-- The addition pass of `_sync_auxiliary_storage` (graph side). -/
theorem syncGraphAdd_nodes (store : Store) (graphIds : List String) :
    ∀ (L : List String) (g : GraphState),
      ∀ x ∈ (L.foldl (fun s i =>
          if i ∉ graphIds then
            if (alistGet store i).isSome then s.addMemoryNode i else s
          else s) g).nodes,
        x ∈ g.nodes ∨ x ∈ L := by
  intro L
  induction L with
  | nil => intro g x hx; exact Or.inl hx
  | cons i T ih =>
      intro g x hx
      rw [List.foldl_cons] at hx
      rcases ih _ x hx with hx' | hx'
      · by_cases hgi : i ∉ graphIds
        · rw [if_pos hgi] at hx'
          by_cases hs : (alistGet store i).isSome
          · rw [if_pos hs] at hx'
            rcases graphAdd_nodes g i x hx' with rfl | h
            · exact Or.inr (by simp)
            · exact Or.inl h
          · rw [if_neg hs] at hx'
            exact Or.inl hx'
        · rw [if_neg hgi] at hx'
          exact Or.inl hx'
      · exact Or.inr (by simp [hx'])

/-- The removal pass of `_sync_auxiliary_storage` (graph side). -/
theorem syncGraphRemove_nodes (memoryIds : List String) :
    ∀ (L : List String) (g : GraphState),
      ∀ x ∈ (L.foldl (fun s i =>
          if i ∉ memoryIds then s.removeMemoryNode i else s) g).nodes,
        x ∈ g.nodes ∧ (x ∉ L ∨ x ∈ memoryIds) := by
  intro L
  induction L with
  | nil => intro g x hx; exact ⟨hx, Or.inl (List.not_mem_nil x)⟩
  | cons i T ih =>
      intro g x hx
      rw [List.foldl_cons] at hx
      rcases ih _ x hx with ⟨hx', hT⟩
      by_cases hm : i ∉ memoryIds
      · rw [if_pos hm] at hx'
        rcases graphRemove_nodes g i x hx' with ⟨hg, hne⟩
        refine ⟨hg, ?_⟩
        rcases hT with hT | hT
        · exact Or.inl (by simp [hne, hT])
        · exact Or.inr hT
      · rw [if_neg hm] at hx'
        refine ⟨hx', ?_⟩
        rcases hT with hT | hT
        · by_cases hxi : x = i
          · subst hxi
            exact Or.inr (not_not.mp hm)
          · exact Or.inl (by simp [hxi, hT])
        · exact Or.inr hT

/-- After `_sync_auxiliary_storage`, the FAISS forward-mapping ids and the
graph node ids are both subsets of the canonical store's key set. -/
theorem sync_subsets (store : Store) (fs : FaissState) (g : GraphState)
    (embedOk : String → Bool) :
    (∀ x ∈ alistKeys (MM.syncAuxiliaryStorage store fs g embedOk).1.id_to_index,
      x ∈ alistKeys store) ∧
    (∀ x ∈ (MM.syncAuxiliaryStorage store fs g embedOk).2.nodes,
      x ∈ alistKeys store) := by
  constructor
  · intro x hx
    have h1 : (MM.syncAuxiliaryStorage store fs g embedOk).1
        = (alistKeys fs.id_to_index).foldl (fun s i =>
            if i ∉ alistKeys store then (s.removeMemory i).1 else s)
          ((alistKeys store).foldl (fun s i =>
            if i ∉ alistKeys fs.id_to_index then
              match alistGet store i with
              | some m => (s.addMemory embedOk i m.content).1
              | none => s
            else s) fs) := rfl
    rw [h1] at hx
    rcases syncFaissRemove_keys (alistKeys store) (alistKeys fs.id_to_index)
        _ x hx with ⟨hx1, hor⟩
    rcases syncFaissAdd_keys store (alistKeys fs.id_to_index) embedOk
        (alistKeys store) fs x hx1 with hfs | hmem
    · rcases hor with hout | hmem
      · exact absurd hfs hout
      · exact hmem
    · exact hmem
  · intro x hx
    have h2 : (MM.syncAuxiliaryStorage store fs g embedOk).2
        = g.nodes.foldl (fun s i =>
            if i ∉ alistKeys store then s.removeMemoryNode i else s)
          ((alistKeys store).foldl (fun s i =>
            if i ∉ g.nodes then
              if (alistGet store i).isSome then s.addMemoryNode i else s
            else s) g) := rfl
    rw [h2] at hx
    rcases syncGraphRemove_nodes (alistKeys store) g.nodes _ x hx
        with ⟨hx1, hor⟩
    rcases syncGraphAdd_nodes store g.nodes (alistKeys store) g x hx1
        with hg | hmem
    · rcases hor with hout | hmem
      · exact absurd hg hout
      · exact hmem
    · exact hmem

/-- C6: no dangling auxiliary references after a synchronization pass.  After
`_sync_auxiliary_storage` — on any store, and in particular on the pruned
store as invoked by `_prune_memories` — every id in the FAISS id-to-slot
mapping and every node of the association graph is a key of the canonical
store. -/
theorem C6_sync_aux_ids_subset (store : Store) (fs : FaissState)
    (g : GraphState) (embedOk : String → Bool) (maxMemories : Nat) :
    (∀ x ∈ alistKeys (MM.syncAuxiliaryStorage store fs g embedOk).1.id_to_index,
      x ∈ alistKeys store) ∧
    (∀ x ∈ (MM.syncAuxiliaryStorage store fs g embedOk).2.nodes,
      x ∈ alistKeys store) ∧
    (∀ x ∈ alistKeys
        (MM.pruneMemories store fs g embedOk maxMemories).2.1.id_to_index,
      x ∈ alistKeys (MM.pruneMemories store fs g embedOk maxMemories).1) ∧
    (∀ x ∈ (MM.pruneMemories store fs g embedOk maxMemories).2.2.nodes,
      x ∈ alistKeys (MM.pruneMemories store fs g embedOk maxMemories).1) := by
  have hstore : (MM.pruneMemories store fs g embedOk maxMemories).1
      = (pySortDescBy (fun p : String × Memory =>
          p.2.importance * (1 - p.2.decay)) store).take maxMemories := rfl
  have hfs : (MM.pruneMemories store fs g embedOk maxMemories).2.1
      = (MM.syncAuxiliaryStorage ((pySortDescBy (fun p : String × Memory =>
          p.2.importance * (1 - p.2.decay)) store).take maxMemories)
          fs g embedOk).1 := rfl
  have hg : (MM.pruneMemories store fs g embedOk maxMemories).2.2
      = (MM.syncAuxiliaryStorage ((pySortDescBy (fun p : String × Memory =>
          p.2.importance * (1 - p.2.decay)) store).take maxMemories)
          fs g embedOk).2 := rfl
  refine ⟨(sync_subsets store fs g embedOk).1,
    (sync_subsets store fs g embedOk).2, ?_, ?_⟩
  · intro x hx
    rw [hfs] at hx
    rw [hstore]
    exact (sync_subsets _ fs g embedOk).1 x hx
  · intro x hx
    rw [hg] at hx
    rw [hstore]
    exact (sync_subsets _ fs g embedOk).2 x hx

/-- C6, witness: syncing a one-record store against a stale FAISS mapping and
a stale graph node yields membership of the surviving id "m1" in both indexes
and, via the theorem, in the canonical key set. -/
theorem C6_witness :
    "m1" ∈ alistKeys (MM.syncAuxiliaryStorage [("m1", coffeeMemory)]
        ⟨[("gone", 0)], [(0, "gone")], 1⟩ ⟨["gone"], []⟩ (fun _ => true)
        ).1.id_to_index ∧
    "m1" ∈ (MM.syncAuxiliaryStorage [("m1", coffeeMemory)]
        ⟨[("gone", 0)], [(0, "gone")], 1⟩ ⟨["gone"], []⟩ (fun _ => true)
        ).2.nodes ∧
    "m1" ∈ alistKeys [("m1", coffeeMemory)] := by
  have h1 : "m1" ∈ alistKeys (MM.syncAuxiliaryStorage [("m1", coffeeMemory)]
      ⟨[("gone", 0)], [(0, "gone")], 1⟩ ⟨["gone"], []⟩ (fun _ => true)
      ).1.id_to_index := by decide
  have h2 : "m1" ∈ (MM.syncAuxiliaryStorage [("m1", coffeeMemory)]
      ⟨[("gone", 0)], [(0, "gone")], 1⟩ ⟨["gone"], []⟩ (fun _ => true)
      ).2.nodes := by decide
  exact ⟨h1, h2, (C6_sync_aux_ids_subset [("m1", coffeeMemory)]
    ⟨[("gone", 0)], [(0, "gone")], 1⟩ ⟨["gone"], []⟩ (fun _ => true) 0).1
    "m1" h1⟩

/-- The merge loop of `import_memories` never overwrites an existing id. -/
theorem mergeImport_preserves (imported : Store) :
    ∀ (store : Store) (k : String), (alistGet store k).isSome →
      alistGet (MM.mergeImport store imported) k = alistGet store k := by
  induction imported with
  | nil => intro store k _; rfl
  | cons p rest ih =>
      intro store k hk
      show alistGet (rest.foldl _ (if (alistGet store p.1).isSome then store
        else store ++ [(p.1, p.2)])) k = alistGet store k
      by_cases hp : (alistGet store p.1).isSome
      · rw [if_pos hp]
        exact ih store k hk
      · rw [if_neg hp]
        have happ : alistGet (store ++ [(p.1, p.2)]) k = alistGet store k :=
          alistGet_append_of_isSome store [(p.1, p.2)] k hk
        rw [← happ]
        exact ih (store ++ [(p.1, p.2)]) k (by rw [happ]; exact hk)

/-- Merging key-fresh records is plain concatenation. -/
theorem mergeImport_disjoint (imported : Store) :
    ∀ (store : Store),
      (∀ k ∈ alistKeys imported, alistGet store k = none) →
      (alistKeys imported).Nodup →
      MM.mergeImport store imported = store ++ imported := by
  induction imported with
  | nil => intro store _ _; simp [MM.mergeImport]
  | cons p rest ih =>
      intro store hdis hnd
      obtain ⟨k, v⟩ := p
      have hk : alistGet store k = none :=
        hdis k (show k ∈ k :: alistKeys rest from List.mem_cons_self k _)
      show rest.foldl _ (if (alistGet store k).isSome then store
        else store ++ [(k, v)]) = store ++ (k, v) :: rest
      rw [if_neg (by simp [hk])]
      have hnd2 : (k :: alistKeys rest).Nodup := hnd
      have hpair := List.nodup_cons.mp hnd2
      have hdis' : ∀ k' ∈ alistKeys rest,
          alistGet (store ++ [(k, v)]) k' = none := by
        intro k' hk'
        have hne : k' ≠ k := fun h => hpair.1 (h ▸ hk')
        rw [alistGet_append_of_none store [(k, v)] k'
          (hdis k' (show k' ∈ k :: alistKeys rest from
            List.mem_cons_of_mem k hk'))]
        simp [alistGet, Ne.symm hne]
      show MM.mergeImport (store ++ [(k, v)]) rest = store ++ (k, v) :: rest
      rw [ih (store ++ [(k, v)]) hdis' hpair.2]
      simp

/-- Building the `imported_memories` dict from key-fresh rows is a plain
append of the rebuilt records. -/
theorem importedOfCsv_eq (now : ℚ) :
    ∀ (rows : List MM.CsvRow) (acc : Store),
      (∀ r ∈ rows, alistGet acc r.id = none) →
      (rows.map (fun r => r.id)).Nodup →
      rows.foldl (fun acc row =>
          alistPut acc row.id (MM.memoryOfCsvRow row now)) acc
        = acc ++ rows.map (fun r => (r.id, MM.memoryOfCsvRow r now)) := by
  intro rows
  induction rows with
  | nil => intro acc _ _; simp
  | cons r rest ih =>
      intro acc hfresh hnd
      rw [List.foldl_cons, alistPut_fresh acc r.id _ (hfresh r (by simp))]
      have hnd2 : (r.id :: rest.map (fun r => r.id)).Nodup := hnd
      have hpair := List.nodup_cons.mp hnd2
      have hfresh' : ∀ r' ∈ rest,
          alistGet (acc ++ [(r.id, MM.memoryOfCsvRow r now)]) r'.id = none := by
        intro r' hr'
        have hne : r'.id ≠ r.id := fun h =>
          hpair.1 (h ▸ List.mem_map_of_mem _ hr')
        rw [alistGet_append_of_none acc _ r'.id (hfresh r' (by simp [hr']))]
        simp [alistGet, Ne.symm hne]
      rw [ih _ hfresh' hpair.2]
      simp

/-- Lookup through a key-preserving map of an association list. -/
theorem alistGet_map_keyed (l : List (String × α)) (g : String → α → β)
    (k : String) :
    alistGet (l.map (fun p => (p.1, g p.1 p.2))) k
      = (alistGet l k).map (g k) := by
  induction l with
  | nil => rfl
  | cons p t ih =>
      obtain ⟨a, b⟩ := p
      by_cases ha : a = k
      · subst ha
        simp [alistGet]
      · simp [alistGet, ha, ih]

/-- CSV export/import into an empty store, record-level characterization. -/
theorem importCsv_roundtrip (store : Store) (now : ℚ)
    (hnd : (alistKeys store).Nodup) :
    MM.importCsv [] (MM.exportCsv store) now
      = store.map (fun p => (p.1, MM.memoryOfCsvRow
          (MM.CsvRow.mk p.1 p.2.content p.2.type p.2.importance
            (MM.joinTags p.2.tags) p.2.created_at) now)) := by
  have hrows : (MM.exportCsv store).map
      (fun r => (r.id, MM.memoryOfCsvRow r now))
      = store.map (fun p => (p.1, MM.memoryOfCsvRow
          (MM.CsvRow.mk p.1 p.2.content p.2.type p.2.importance
            (MM.joinTags p.2.tags) p.2.created_at) now)) := by
    unfold MM.exportCsv
    rw [List.map_map]
    rfl
  have hids : (MM.exportCsv store).map (fun r => r.id) = alistKeys store := by
    unfold MM.exportCsv
    rw [List.map_map]
    rfl
  have himp : MM.importedOfCsv (MM.exportCsv store) now
      = (MM.exportCsv store).map (fun r => (r.id, MM.memoryOfCsvRow r now)) := by
    unfold MM.importedOfCsv
    rw [importedOfCsv_eq now (MM.exportCsv store) []
      (fun r _ => rfl) (by rw [hids]; exact hnd)]
    simp
  have hnodup : (alistKeys ((MM.exportCsv store).map
      (fun r => (r.id, MM.memoryOfCsvRow r now)))).Nodup := by
    have : alistKeys ((MM.exportCsv store).map
        (fun r => (r.id, MM.memoryOfCsvRow r now)))
        = (MM.exportCsv store).map (fun r => r.id) := by
      unfold alistKeys
      rw [List.map_map]
      rfl
    rw [this, hids]
    exact hnd
  show MM.mergeImport [] (MM.importedOfCsv (MM.exportCsv store) now) = _
  rw [himp, mergeImport_disjoint _ [] (fun k _ => rfl) hnodup]
  rw [← hrows]
  simp

/-- C9: export/import round trip and first-writer-wins.  Exporting a store
(with the dict's unique keys) and importing into an empty store restores the
same key set and, per record, the same content, type and importance — exactly
for JSON (full record equality) and field-wise for CSV; and importing into a
non-empty store never overwrites an existing id, for both formats. -/
theorem C9_round_trip_first_writer_wins (store fileJson : Store)
    (rows : List MM.CsvRow) (now : ℚ) (k : String)
    (hnd : (alistKeys store).Nodup) :
    MM.importJson [] (MM.exportJson store) = store ∧
    alistKeys (MM.importCsv [] (MM.exportCsv store) now) = alistKeys store ∧
    (∀ i m, alistGet store i = some m →
      ∃ m', alistGet (MM.importCsv [] (MM.exportCsv store) now) i = some m' ∧
        m'.content = m.content ∧ m'.type = m.type ∧
        m'.importance = m.importance) ∧
    ((alistGet store k).isSome →
      alistGet (MM.importJson store fileJson) k = alistGet store k) ∧
    ((alistGet store k).isSome →
      alistGet (MM.importCsv store rows now) k = alistGet store k) := by
  refine ⟨?_, ?_, ?_, ?_, ?_⟩
  · show MM.mergeImport [] store = store
    rw [mergeImport_disjoint store [] (fun k _ => rfl) hnd]
    simp
  · rw [importCsv_roundtrip store now hnd]
    unfold alistKeys
    rw [List.map_map]
    rfl
  · intro i m hm
    rw [importCsv_roundtrip store now hnd]
    refine ⟨MM.memoryOfCsvRow (MM.CsvRow.mk i m.content m.type m.importance
      (MM.joinTags m.tags) m.created_at) now, ?_, rfl, rfl, rfl⟩
    have := alistGet_map_keyed store (fun a b => MM.memoryOfCsvRow
      (MM.CsvRow.mk a b.content b.type b.importance
        (MM.joinTags b.tags) b.created_at) now) i
    rw [this, hm]
    rfl
  · intro h
    exact mergeImport_preserves fileJson store k h
  · intro h
    exact mergeImport_preserves (MM.importedOfCsv rows now) store k h

/-- C9, witness: one-record store round trip and a no-overwrite lookup. -/
theorem C9_witness :
    MM.importJson [] (MM.exportJson [("m1", coffeeMemory)])
      = [("m1", coffeeMemory)] ∧
    alistGet (MM.importJson [("m1", coffeeMemory)] [("m1", teaMemory)]) "m1"
      = alistGet [("m1", coffeeMemory)] "m1" ∧
    ∃ m', alistGet (MM.importCsv [] (MM.exportCsv [("m1", coffeeMemory)]) 0)
        "m1" = some m' ∧
      m'.content = coffeeMemory.content ∧ m'.type = coffeeMemory.type ∧
      m'.importance = coffeeMemory.importance := by
  have h := C9_round_trip_first_writer_wins [("m1", coffeeMemory)]
    [("m1", teaMemory)] [] 0 "m1" (by decide)
  exact ⟨h.1, h.2.2.2.1 (by rfl), h.2.2.1 "m1" coffeeMemory rfl⟩
